import Mathlib

/-!
# Quotes.h: the quote table of the LED matrix display

`Quotes.h` declares a table of C string literals, `quoteStrings`, whose bytes
are glyph codes of the companion font table, and the constant `QUOTE_COUNT`,
computed with the `sizeof(a) / sizeof(a[0])` idiom.

The embedding keeps the header's data byte for byte:

* `quoteCodes` are the hex escapes written in the four literals,
* `stringLiteral` adds the terminating NUL a C string literal carries,
* `quoteStrings` is the table of the four NUL-terminated arrays,
* `quoteComments` is the text written beside each literal,
* `countOf` is the `sizeof` division, with the pointer size and the width of
  `int` taken from a `Target`, since the header fixes neither.

The header defines no lookup function. Two readings of a lookup are kept
apart:

* `rawGet` is the access the header itself offers, the C subscript
  `quoteStrings[i]`, an address computation and a load with no check,
* `lookup` and `get` follow the bounds-checked `get(index)` the specification
  describes.

`Qualifiers`, `Access` and `exec` give the accesses that the declarations
`const char* quoteStrings[]` and `const int QUOTE_COUNT` admit.
-/

namespace Quotes

/-! ## Data of the header -/

/-- The hex escapes written in the four string literals of `quoteStrings`,
in source order. Each `\xNN` escape is one byte. -/
def quoteCodes : List (List Nat) :=
  [ [0x8B, 0x8A, 0x85, 0x93, 0x83, 0x8A, 0x8D, 0x8C],
    [0x95, 0x96, 0x92, 0x91, 0x92, 0x84, 0x89, 0x97, 0x92, 0x8F, 0x92, 0x86],
    [0x90, 0x94, 0x98, 0x99],
    [0x80, 0x8E, 0x88, 0x81, 0x87, 0x82, 0x84, 0x86, 0x80] ]

/-- The array a C string literal denotes: its bytes followed by a NUL. -/
def stringLiteral (codes : List Nat) : List Nat := codes ++ [0]

/-- The table `const char* quoteStrings[]`: every slot points at the array of
its string literal. -/
def quoteStrings : List (List Nat) := quoteCodes.map stringLiteral

/-- The text of the line comment that follows each literal in the header. -/
def quoteComments : List (List Char) :=
  [ "沒有奇蹟只有累積".data,
    "金錢越賺越多時 間越花越少".data,
    "講重點！".data,
    "人脈是你幫助多少人".data ]

/-! ## The compile-time count -/

/-- The two sizes of the compilation target that the count depends on:
`sizeof(const char*)` in bytes and the width of `int` in bits. -/
structure Target where
  ptrBytes : Nat
  intBits : Nat
deriving DecidableEq, Repr

/-- A target C++ can be compiled for: pointers occupy at least one byte and
`int` has at least 16 bits. -/
def Target.conforming (t : Target) : Prop := 0 < t.ptrBytes ∧ 16 ≤ t.intBits

instance (t : Target) : Decidable t.conforming := by
  unfold Target.conforming; infer_instance

/-- The value of `sizeof(table)` for an array of pointers: the number of slots
times the size of one pointer. The array is an object of the program, so its
size is representable in `size_t` and the product is exact. -/
def sizeofTable (t : Target) (table : List (List Nat)) : Nat :=
  table.length * t.ptrBytes

/-- The value of `sizeof(table[0])`: the size of one pointer. The operand of
`sizeof` is not evaluated, so the value does not depend on the slot. -/
def sizeofSlot (t : Target) : Nat := t.ptrBytes

/-- Conversion of an unsigned value to the target's `int`
(two's complement, `intBits` wide). -/
def toInt (t : Target) (x : Nat) : Int :=
  if x % 2 ^ t.intBits < 2 ^ (t.intBits - 1) then ((x % 2 ^ t.intBits : Nat) : Int)
  else ((x % 2 ^ t.intBits : Nat) : Int) - ((2 ^ t.intBits : Nat) : Int)

/-- The initialiser of `QUOTE_COUNT`, for an arbitrary table:
`sizeof(table) / sizeof(table[0])`, stored in a `const int`. -/
def countOf (t : Target) (table : List (List Nat)) : Int :=
  toInt t (sizeofTable t table / sizeofSlot t)

/-- The constant
`const int QUOTE_COUNT = sizeof(quoteStrings) / sizeof(quoteStrings[0]);` -/
def QUOTE_COUNT (t : Target) : Int := countOf t quoteStrings

/-! ## Reading a C string -/

/-- Length of a C string as the C library's `strlen` scans it: the number of
bytes before the first NUL. -/
def strlen : List Nat → Nat
  | [] => 0
  | b :: rest => if b = 0 then 0 else strlen rest + 1

/-- The bytes of a C string: everything before the first NUL. -/
def cstrBytes : List Nat → List Nat
  | [] => []
  | b :: rest => if b = 0 then [] else b :: cstrBytes rest

/-! ## The read-only interface -/

/-- Modelled from the spec: the one failure of the interface, an index outside
the table. The header declares no error type. -/
inductive QuoteError where
  | indexOutOfRange
deriving DecidableEq, Repr

/-- Modelled from the spec: the lookup `get(index)`, which the header does not
define (it only declares the table and its count, and C subscripting has no
bounds check). An index with `0 <= index < count` returns the bytes of the
quote in that slot; any other index is the error *index out of range*. -/
def lookup (t : Target) (table : List (List Nat)) (index : Int) :
    Except QuoteError (List Nat) :=
  if 0 ≤ index ∧ index < countOf t table then
    match table[index.toNat]? with
    | some s => .ok (cstrBytes s)
    | none => .error .indexOutOfRange
  else .error .indexOutOfRange

/-- Modelled from the spec: `get(index)` on the header's table `quoteStrings`,
bounded by `QUOTE_COUNT`. -/
def get (t : Target) (index : Int) : Except QuoteError (List Nat) :=
  lookup t quoteStrings index

/-! ## The subscript of the header -/

/-- The characters of a comment that stand for a glyph: all but the blanks. -/
def glyphChars (text : List Char) : List Char := text.filter (fun c => c != ' ')

/-- Every character of the comments paired with the byte at the same position
of its quote, over the four entries in order. -/
def glyphPairs : List (Char × Nat) :=
  (List.zip quoteComments quoteCodes).flatMap (fun e => List.zip (glyphChars e.1) e.2)

/-- The code of a character: the byte it is paired with in the header, and for
a character the header never uses a value above every byte. -/
def glyphCode (c : Char) : Nat :=
  match glyphPairs.lookup c with
  | some b => b
  | none => c.toNat + 0x100

/-! ## Helper lemmas -/

theorem toInt_of_lt (t : Target) (x : Nat) (h : x < 2 ^ (t.intBits - 1)) :
    toInt t x = (x : Int) := by
  have hle : 2 ^ (t.intBits - 1) ≤ 2 ^ t.intBits :=
    Nat.pow_le_pow_right (by decide) (Nat.sub_le _ _)
  have hx : x % 2 ^ t.intBits = x := Nat.mod_eq_of_lt (lt_of_lt_of_le h hle)
  unfold toInt
  rw [hx, if_pos h]

theorem countOf_eq_length (t : Target) (table : List (List Nat))
    (hp : 0 < t.ptrBytes) (hn : table.length < 2 ^ (t.intBits - 1)) :
    countOf t table = (table.length : Int) := by
  unfold countOf sizeofTable sizeofSlot
  rw [Nat.mul_div_cancel _ hp]
  exact toInt_of_lt t _ hn

theorem small_lt_of_conforming (t : Target) (h : t.conforming) (n : Nat) (hn : n < 2 ^ 15) :
    n < 2 ^ (t.intBits - 1) := by
  have h16 : 15 ≤ t.intBits - 1 := by
    have := h.2
    omega
  exact lt_of_lt_of_le hn (Nat.pow_le_pow_right (by decide) h16)

theorem QUOTE_COUNT_eq (t : Target) (h : t.conforming) : QUOTE_COUNT t = 4 := by
  unfold QUOTE_COUNT
  rw [countOf_eq_length t quoteStrings h.1 (small_lt_of_conforming t h _ (by decide))]
  rfl

theorem countOf_quoteStrings (t : Target) (h : t.conforming) : countOf t quoteStrings = 4 :=
  QUOTE_COUNT_eq t h

theorem get_in_range (t : Target) (h : t.conforming) (i : Int) (h0 : 0 ≤ i)
    (h1 : i < QUOTE_COUNT t) :
    ∃ q, get t i = .ok q ∧ quoteCodes[i.toNat]? = some q := by
  rw [QUOTE_COUNT_eq t h] at h1
  have hc : (0 : Int) < countOf t quoteStrings ∧ (1 : Int) < countOf t quoteStrings
      ∧ (2 : Int) < countOf t quoteStrings ∧ (3 : Int) < countOf t quoteStrings := by
    rw [countOf_quoteStrings t h]; decide
  unfold get lookup
  interval_cases i
  · exact ⟨_, by rw [if_pos ⟨le_refl _, hc.1⟩]; rfl, rfl⟩
  · exact ⟨_, by rw [if_pos ⟨by decide, hc.2.1⟩]; rfl, rfl⟩
  · exact ⟨_, by rw [if_pos ⟨by decide, hc.2.2.1⟩]; rfl, rfl⟩
  · exact ⟨_, by rw [if_pos ⟨by decide, hc.2.2.2⟩]; rfl, rfl⟩

theorem quote_bytes_bounds :
    ∀ s ∈ quoteStrings, ∀ b ∈ cstrBytes s, 0x80 ≤ b ∧ b ≤ 0x99 := by
  decide

theorem mem_of_lookup_eq_some (l : List (Char × Nat)) (c : Char) (b : Nat)
    (h : l.lookup c = some b) : (c, b) ∈ l := by
  induction l with
  | nil => simp at h
  | cons p ps ih =>
    obtain ⟨k, v⟩ := p
    rw [List.lookup_cons] at h
    by_cases hk : (c == k) = true
    · rw [hk] at h
      have hc : c = k := by simpa using hk
      have hv : v = b := by simpa using h
      rw [hc, hv]
      exact List.mem_cons_self _ _
    · have hk2 : (c == k) = false := by simpa using hk
      rw [hk2] at h
      exact List.mem_cons_of_mem _ (ih h)

theorem glyphPairs_code_lt : ∀ p ∈ glyphPairs, p.2 < 0x100 := by
  decide

theorem glyphPairs_code_inj : ∀ p ∈ glyphPairs, ∀ q ∈ glyphPairs, p.2 = q.2 → p.1 = q.1 := by
  decide

theorem glyphCode_injective : Function.Injective glyphCode := by
  intro a b hab
  unfold glyphCode at hab
  cases ha : glyphPairs.lookup a with
  | none =>
    cases hb : glyphPairs.lookup b with
    | none =>
      rw [ha, hb] at hab
      simp only at hab
      have hn : a.toNat = b.toNat := by omega
      exact Char.ext (UInt32.toNat.inj hn)
    | some y =>
      rw [ha, hb] at hab
      have hy := glyphPairs_code_lt _ (mem_of_lookup_eq_some _ _ _ hb)
      simp only at hab hy
      omega
  | some x =>
    cases hb : glyphPairs.lookup b with
    | none =>
      rw [ha, hb] at hab
      have hx := glyphPairs_code_lt _ (mem_of_lookup_eq_some _ _ _ ha)
      simp only at hab hx
      omega
    | some y =>
      rw [ha, hb] at hab
      simp only at hab
      exact glyphPairs_code_inj _ (mem_of_lookup_eq_some _ _ _ ha) _
        (mem_of_lookup_eq_some _ _ _ hb) hab

/-! ## The claims -/

/-- C2: on a conforming target every index `i` with `0 <= i < QUOTE_COUNT` is
answered by `get` with a byte sequence, the codes of entry `i` of the table,
and not with the error. -/
theorem get_succeeds_in_range (t : Target) (h : t.conforming) (i : Int) (h0 : 0 ≤ i)
    (h1 : i < QUOTE_COUNT t) :
    (∃ q, get t i = .ok q ∧ quoteCodes[i.toNat]? = some q) ∧
    get t i ≠ .error .indexOutOfRange := by
  obtain ⟨q, hq, hs⟩ := get_in_range t h i h0 h1
  refine ⟨⟨q, hq, hs⟩, ?_⟩
  rw [hq]
  intro hne
  cases hne

theorem get_succeeds_in_range_witness :
    Target.conforming ⟨2, 16⟩ ∧ (0 : Int) ≤ 3 ∧ (3 : Int) < QUOTE_COUNT ⟨2, 16⟩ ∧
    ((∃ q, get ⟨2, 16⟩ 3 = .ok q ∧ quoteCodes[(3 : Int).toNat]? = some q) ∧
      get ⟨2, 16⟩ 3 ≠ .error .indexOutOfRange) :=
  ⟨by decide, by decide, by decide,
    get_succeeds_in_range ⟨2, 16⟩ (by decide) 3 (by decide) (by decide)⟩

/-- C3: on a conforming target `QUOTE_COUNT`, computed as
`sizeof(quoteStrings) / sizeof(quoteStrings[0])` from the table of the header,
is exactly 4, the number of entries of `quoteStrings`. -/
theorem QUOTE_COUNT_eq_four (t : Target) (h : t.conforming) :
    QUOTE_COUNT t = 4 ∧ QUOTE_COUNT t = (quoteStrings.length : Int) :=
  ⟨QUOTE_COUNT_eq t h, by rw [QUOTE_COUNT_eq t h]; rfl⟩

theorem QUOTE_COUNT_eq_four_witness :
    Target.conforming ⟨4, 32⟩ ∧ QUOTE_COUNT ⟨4, 32⟩ = 4 ∧
    QUOTE_COUNT ⟨4, 32⟩ = (quoteStrings.length : Int) :=
  ⟨by decide, QUOTE_COUNT_eq_four ⟨4, 32⟩ (by decide)⟩

/-- C4: for every table of `n >= 1` entries, a positive pointer size and `n`
small enough for `int`, the expression of `QUOTE_COUNT`,
`sizeof(table) / sizeof(table[0])`, equals `n`; with a fifth quote appended to
the four of the header the same expression yields 5. -/
theorem countOf_follows_table (t : Target) (table : List (List Nat)) (q : List Nat)
    (hp : 0 < t.ptrBytes)
    (hfit : table.length < 2 ^ (t.intBits - 1)) (h5 : 5 < 2 ^ (t.intBits - 1)) :
    countOf t table = (table.length : Int) ∧ countOf t (quoteStrings ++ [q]) = 5 :=
  ⟨countOf_eq_length t table hp hfit, by
    rw [countOf_eq_length t (quoteStrings ++ [q]) hp (by simpa [quoteStrings, quoteCodes] using h5)]
    simp [quoteStrings, quoteCodes]⟩

theorem countOf_follows_table_witness :
    0 < Target.ptrBytes ⟨2, 16⟩ ∧
    countOf ⟨2, 16⟩ [stringLiteral [0x80], stringLiteral [0x81], stringLiteral [0x82]] = 3 ∧
    countOf ⟨2, 16⟩ (quoteStrings ++ [stringLiteral [0x80, 0x81]]) = 5 :=
  ⟨by decide,
    countOf_follows_table ⟨2, 16⟩ [stringLiteral [0x80], stringLiteral [0x81], stringLiteral [0x82]]
      (stringLiteral [0x80, 0x81]) (by decide) (by decide) (by decide)⟩

/-- C5: on a conforming target `get(0)` returns exactly the bytes
`8B 8A 85 93 83 8A 8D 8C`, eight of them; the NUL that ends the string in slot 0
is not among them. -/
theorem get_zero (t : Target) (h : t.conforming) :
    get t 0 = .ok [0x8B, 0x8A, 0x85, 0x93, 0x83, 0x8A, 0x8D, 0x8C] ∧
    [0x8B, 0x8A, 0x85, 0x93, 0x83, 0x8A, 0x8D, 0x8C].length = 8 ∧
    quoteStrings[0]? = some [0x8B, 0x8A, 0x85, 0x93, 0x83, 0x8A, 0x8D, 0x8C, 0] := by
  refine ⟨?_, rfl, rfl⟩
  unfold get lookup
  rw [if_pos ⟨le_refl _, by rw [countOf_quoteStrings t h]; decide⟩]
  rfl

theorem get_zero_witness :
    Target.conforming ⟨2, 16⟩ ∧
    get ⟨2, 16⟩ 0 = .ok [0x8B, 0x8A, 0x85, 0x93, 0x83, 0x8A, 0x8D, 0x8C] :=
  ⟨by decide, (get_zero ⟨2, 16⟩ (by decide)).1⟩

/-- C6: on a conforming target `get(2)` returns exactly the bytes
`90 94 98 99`, four of them. -/
theorem get_two (t : Target) (h : t.conforming) :
    get t 2 = .ok [0x90, 0x94, 0x98, 0x99] ∧
    [0x90, 0x94, 0x98, 0x99].length = 4 ∧
    quoteStrings[2]? = some [0x90, 0x94, 0x98, 0x99, 0] := by
  refine ⟨?_, rfl, rfl⟩
  unfold get lookup
  rw [if_pos ⟨by decide, by rw [countOf_quoteStrings t h]; decide⟩]
  rfl

theorem get_two_witness :
    Target.conforming ⟨4, 32⟩ ∧ get ⟨4, 32⟩ 2 = .ok [0x90, 0x94, 0x98, 0x99] :=
  ⟨by decide, (get_two ⟨4, 32⟩ (by decide)).1⟩

/-- C8: the byte values that occur in the four quotes of `quoteStrings` are
exactly the codes `0x80 .. 0x99`: each of the 26 occurs in some quote, no
other value does, and `0x99` is the largest byte of the table. -/
theorem quote_bytes_are_glyph_range :
    (∀ b : Nat, (∃ s ∈ quoteStrings, b ∈ cstrBytes s) ↔ (0x80 ≤ b ∧ b ≤ 0x99)) ∧
    ((quoteStrings.flatMap cstrBytes).dedup).length = 26 ∧
    (quoteStrings.flatMap cstrBytes).foldl max 0 = 0x99 := by
  refine ⟨fun b => ⟨?_, ?_⟩, by decide, by decide⟩
  · rintro ⟨s, hs, hb⟩
    exact quote_bytes_bounds s hs b hb
  · rintro ⟨hlo, hhi⟩
    interval_cases b <;> decide

/-- C9: the bytes agree with the text written beside each quote: every entry
has as many bytes as its comment has non-blank characters (8, 12, 4, 9), and
one injective map from characters to codes, `glyphCode`, sends each comment,
character by character, to the bytes of its quote. -/
theorem codes_follow_comments :
    quoteComments.map (fun text => (glyphChars text).length) = [8, 12, 4, 9] ∧
    quoteCodes.map List.length = [8, 12, 4, 9] ∧
    (∃ f : Char → Nat, Function.Injective f ∧
      quoteCodes = quoteComments.map (fun text => (glyphChars text).map f) ∧
      f '有' = 0x8A ∧ f '越' = 0x92 ∧ f '多' = 0x84 ∧ f '少' = 0x86 ∧ f '人' = 0x80) :=
  ⟨by decide, by decide, glyphCode, glyphCode_injective, by decide, by decide, by decide,
    by decide, by decide, by decide⟩

/-- C10: no quote of `quoteStrings` holds the byte `0x00` and none is empty,
so scanning each string of the table up to its NUL gives the number of codes
written in its literal: 8, 12, 4 and 9. -/
theorem no_embedded_terminator :
    (∀ codes ∈ quoteCodes, 0 ∉ codes ∧ codes ≠ []) ∧
    quoteStrings.map strlen = quoteCodes.map List.length ∧
    quoteStrings.map strlen = [8, 12, 4, 9] ∧
    quoteStrings.map cstrBytes = quoteCodes := by
  refine ⟨by decide, by decide, by decide, by decide⟩

end Quotes
